import Mathlib

/-!
# Verification of the kicad-keyboard-grinner row layout engine

Shallow embedding of the pure layout functions of the repository
(`src/layout_calculator.py`, `src/geometry.py`, `src/keyboard_grinner.py`,
`src/unit_parsing.py`) together with proofs of the specification claims.

Python floats are modelled as exact numbers: `ℚ` for the purely arithmetic
functions and `ℝ` for the functions that use trigonometry or square roots
(`math.cos`, `math.sin`, `math.hypot`).  `NaN` has no counterpart in either
type; where the source tests `math.isnan` this is noted in the doc comment.
-/

namespace KeyboardGrinner

/-- `UNIT_MM = 19.05` from `src/unit_parsing.py` (key pitch, 1u). -/
def UNIT_MM : ℚ := 19.05

/-! ## Curve model (`calculate_bezier_controls`, `calculate_asymmetric_bezier_controls`) -/

/-- `calculate_asymmetric_bezier_controls` from `src/geometry.py` (lines 166-223).
Points are `(x, y)` pairs; returns the pair `(P1, P2)`. -/
def calculate_asymmetric_bezier_controls (P0 P3 : ℚ × ℚ) (sag_y_mm left_width_mm
    right_width_mm : ℚ) : (ℚ × ℚ) × (ℚ × ℚ) :=
  let row_length := P3.1 - P0.1
  let beta := (4/3) * (-sag_y_mm)
  let total_width := left_width_mm + right_width_mm
  let asymmetry := if 1e-6 < total_width then (left_width_mm - right_width_mm) / total_width
    else 0
  let shift_factor := (0.15 : ℚ)
  let shift := asymmetry * shift_factor
  let p1_from_left := 1/3 - shift
  let p2_from_right := 1/3 + shift
  let P1 := (P0.1 + row_length * p1_from_left, P0.2 + beta)
  let P2 := (P3.1 - row_length * p2_from_right, P3.2 + beta)
  (P1, P2)

/-- `calculate_bezier_controls` from `src/layout_calculator.py` (lines 210-236). -/
def calculate_bezier_controls (P0 P3 : ℚ × ℚ) (sag_y_mm left_width_mm right_width_mm : ℚ)
    (use_asymmetric : Bool) : (ℚ × ℚ) × (ℚ × ℚ) :=
  let row_length := P3.1 - P0.1
  if use_asymmetric then
    calculate_asymmetric_bezier_controls P0 P3 sag_y_mm left_width_mm right_width_mm
  else
    let beta := (4/3) * (-sag_y_mm)
    let P1 := (P0.1 + row_length / 3, P0.2 + beta)
    let P2 := (P3.1 - row_length / 3, P3.2 + beta)
    (P1, P2)

/-! ## Dimension normalization (`_quantize_dim_mm`, end of `infer_key_dimensions`) -/

/-- Python's built-in `round`: round half to even (banker's rounding), on exact
rationals. -/
def pyRound (q : ℚ) : ℤ :=
  let f := ⌊q⌋
  if q - f < 1/2 then f
  else if 1/2 < q - f then f + 1
  else if f % 2 = 0 then f else f + 1

/-- `_quantize_dim_mm` from `src/keyboard_grinner.py` (lines 109-121).  The Python
default arguments are `min_units=1.0, step=0.25`; callers use the defaults.  The
`TypeError`/`ValueError` and `math.isnan` branches (which also return
`min_units * UNIT_MM`) have no counterpart for exact rational inputs. -/
def _quantize_dim_mm (value_mm min_units step : ℚ) : ℚ :=
  if value_mm ≤ 0 then min_units * UNIT_MM
  else
    let units := value_mm / UNIT_MM
    let units := max min_units units
    let units := (pyRound (units / step) : ℚ) * step
    let units := if units < min_units then min_units else units
    units * UNIT_MM

/-- The final clamp of `infer_key_dimensions` in `src/keyboard_grinner.py`
(lines 188-191): a dimension that is `<= 0` (or `NaN`, not representable here)
is replaced by the default `UNIT_MM`; applied to each of width and height. -/
def infer_key_dimensions_clamp (dim_mm : ℚ) : ℚ :=
  if dim_mm ≤ 0 then UNIT_MM else dim_mm

/-! ## Finishing passes (`apply_flat_key_adjustments`, `apply_position_to_origin`) -/

/-- `apply_flat_key_adjustments` categories are the five strings of the source;
see `assign_categories` below. -/
inductive Cat where
  | lower
  | upper
  | flat
  | valley_flat
  | valley_upper
deriving DecidableEq, Repr

/-- `apply_flat_key_adjustments` from `src/layout_calculator.py` (lines 360-380).
The Python loop mutates `centers` in place; modelled as a fold of `List.set`
updates over `range N`, followed by the final `centers[-1]` update. -/
def apply_flat_key_adjustments (centers : List (ℚ × ℚ)) (categories : List Cat)
    (N : ℕ) : List (ℚ × ℚ) :=
  if 0 < N then
    let base_y := (centers.getD 0 (0, 0)).2
    let c1 := (List.range N).foldl
      (fun cs idx =>
        if categories.getD idx Cat.lower = Cat.flat ∧ 0 < idx then
          cs.set idx ((cs.getD idx (0, 0)).1, base_y)
        else cs)
      centers
    if 1 < N then c1.set (c1.length - 1) ((c1.getD (c1.length - 1) (0, 0)).1, base_y)
    else c1
  else centers

/-- `apply_position_to_origin` from `src/layout_calculator.py` (lines 383-399).
The source reads `original_centers_math[0]`, which requires a non-empty original
list; modelled with `getD`. -/
def apply_position_to_origin (centers original_centers_math : List (ℚ × ℚ)) :
    List (ℚ × ℚ) :=
  match centers with
  | [] => centers
  | c0 :: _ =>
    let delta_x := c0.1 - (original_centers_math.getD 0 (0, 0)).1
    let delta_y := c0.2 - (original_centers_math.getD 0 (0, 0)).2
    if 1e-9 < |delta_x| ∨ 1e-9 < |delta_y| then
      centers.map (fun c => (c.1 - delta_x, c.2 - delta_y))
    else centers

/-! ## Category assigner (`assign_categories`) -/

/-- Python `range(a, b)`. -/
def rangeFromTo (a b : ℕ) : List ℕ := List.range' a (b - a)

/-- The inner `mark_flats` loop of `assign_categories`
(`src/layout_calculator.py` lines 80-91): walk `seq`, skip entries that are no
longer `lower`, set up to `remaining` entries to `flat`, stop when the budget is
exhausted.  The caller passes `indices` (left side, `from_start=True`) or
`reversed(indices)` (right side, `from_start=False`). -/
def markFlatsAux : List Cat → List ℕ → ℕ → List Cat
  | cats, _, 0 => cats
  | cats, [], _ + 1 => cats
  | cats, idx :: rest, r + 1 =>
    if cats.getD idx Cat.lower ≠ Cat.lower then
      markFlatsAux cats rest (r + 1)
    else
      markFlatsAux (cats.set idx Cat.flat) rest r

/-- The `left_nonflat` block of `assign_categories` (lines 96-100): if the list
of still-`lower` indices on the left side is non-empty, its last element becomes
`upper` and the remaining ones are (re)assigned `lower`. -/
def applyUpperLast (cats : List Cat) (nonflat : List ℕ) : List Cat :=
  match nonflat.getLast? with
  | none => cats
  | some j => nonflat.dropLast.foldl (fun c i => c.set i Cat.lower) (cats.set j Cat.upper)

/-- The `right_nonflat` block of `assign_categories` (lines 102-106): if the
list of still-`lower` indices on the right side is non-empty, its first element
becomes `upper` and the remaining ones are (re)assigned `lower`. -/
def applyUpperHead (cats : List Cat) (nonflat : List ℕ) : List Cat :=
  match nonflat.head? with
  | none => cats
  | some j => nonflat.tail.foldl (fun c i => c.set i Cat.lower) (cats.set j Cat.upper)

/-- Both `mark_flats` calls of `assign_categories` (lines 93-94): the left side
with `from_start=True` (the index list as is), then the right side with
`from_start=False` (the reversed index list). -/
def afterFlats (cats1 : List Cat) (left_indices right_indices : List ℕ)
    (end_flat : ℕ) : List Cat :=
  markFlatsAux (markFlatsAux cats1 left_indices end_flat) right_indices.reverse end_flat

/-- The `left_nonflat` block of `assign_categories` (lines 96-100). -/
def afterLeftUpper (cats3 : List Cat) (left_indices : List ℕ) : List Cat :=
  applyUpperLast cats3
    (left_indices.filter (fun i => cats3.getD i Cat.lower == Cat.lower))

/-- The `right_nonflat` block of `assign_categories` (lines 102-106). -/
def afterRightUpper (cats4 : List Cat) (right_indices : List ℕ) : List Cat :=
  applyUpperHead cats4
    (right_indices.filter (fun i => cats4.getD i Cat.lower == Cat.lower))

/-- The common tail of `assign_categories` (lines 80-108): both mark_flats
calls followed by the `left_nonflat` / `right_nonflat` blocks. -/
def assignFinish (cats1 : List Cat) (left_indices right_indices : List ℕ)
    (end_flat : ℕ) : List Cat :=
  afterRightUpper
    (afterLeftUpper (afterFlats cats1 left_indices right_indices end_flat) left_indices)
    right_indices

/-- `assign_categories` from `src/layout_calculator.py` (lines 53-108)
(duplicated verbatim in `src/keyboard_grinner.py` lines 380-425).  `end_flat`
is a Python `int`; a negative value behaves exactly like `0` (the
`remaining <= 0` early return), so `ℕ` is faithful. -/
def assign_categories (count : ℕ) (end_flat : ℕ) : List Cat :=
  if count = 0 then []
  else if count % 2 = 1 then
    let center := count / 2
    assignFinish ((List.replicate count Cat.lower).set center Cat.valley_flat)
      (rangeFromTo 0 center) (rangeFromTo (center + 1) count) end_flat
  else
    let center_left := count / 2 - 1
    let center_right := count / 2
    assignFinish
      (((List.replicate count Cat.lower).set center_left Cat.valley_upper).set
        center_right Cat.valley_upper)
      (rangeFromTo 0 center_left) (rangeFromTo (center_right + 1) count) end_flat

/-! ## Closed-form characterization of `assign_categories`

`catAt count end_flat i` gives slot `i`'s category in closed form, following
the corrected spec wording: after the centre marks, each side is walked from
the outer edge toward the centre, marking up to `end_flat` still-`lower` slots
as `flat`; then the still-`lower` slot closest to the centre on each side (if
any) becomes `upper` and the rest stay `lower`. -/
def catAt (count end_flat i : ℕ) : Cat :=
  if count % 2 = 1 then
    let c := count / 2
    let k := min end_flat c
    if i = c then Cat.valley_flat
    else if i < c then
      if i < k then Cat.flat
      else if i = c - 1 then Cat.upper
      else Cat.lower
    else
      if count - k ≤ i then Cat.flat
      else if i = c + 1 then Cat.upper
      else Cat.lower
  else
    let m := count / 2
    let k := min end_flat (m - 1)
    if i = m - 1 ∨ i = m then Cat.valley_upper
    else if i < m - 1 then
      if i < k then Cat.flat
      else if i = m - 2 then Cat.upper
      else Cat.lower
    else
      if count - k ≤ i then Cat.flat
      else if i = m + 1 then Cat.upper
      else Cat.lower

theorem range'_concat_one (s n : ℕ) :
    List.range' s (n + 1) = List.range' s n ++ [s + n] := by
  simpa using @List.range'_concat 1 s n

theorem take_range' (s n k : ℕ) : (List.range' s n).take k = List.range' s (min k n) := by
  induction n generalizing s k with
  | zero => simp
  | succ n ih =>
    rw [List.range'_succ]
    cases k with
    | zero => simp
    | succ k =>
      rw [List.take_succ_cons, ih]
      have : min (k + 1) (n + 1) = min k n + 1 := by omega
      rw [this, List.range'_succ]

theorem mem_take_reverse_range' (s n k i : ℕ) :
    i ∈ (List.range' s n).reverse.take k ↔ s + n - min k n ≤ i ∧ i < s + n := by
  induction n generalizing k with
  | zero => simp
  | succ n ih =>
    rw [range'_concat_one, List.reverse_append]
    cases k with
    | zero => simp
    | succ k =>
      simp only [List.reverse_cons, List.reverse_nil, List.nil_append, List.singleton_append,
        List.take_succ_cons, List.mem_cons, ih]
      omega

theorem filter_ge_range' (n k : ℕ) :
    (List.range' 0 n).filter (fun i => decide (k ≤ i)) = List.range' k (n - k) := by
  induction n with
  | zero => simp
  | succ n ih =>
    have hconc : List.range' 0 (n + 1) = List.range' 0 n ++ [n] := by
      simpa using range'_concat_one 0 n
    rw [hconc, List.filter_append, ih]
    by_cases h : k ≤ n
    · have h1 : n + 1 - k = (n - k) + 1 := by omega
      have h2 : k + (n - k) = n := by omega
      simp only [List.filter_cons, List.filter_nil, decide_eq_true_eq, if_pos h]
      rw [h1, range'_concat_one k (n - k), h2]
    · have h1 : n - k = 0 := by omega
      have h2 : n + 1 - k = 0 := by omega
      simp [List.filter_cons, h, h1, h2]

theorem filter_lt_range' (s n b : ℕ) :
    (List.range' s n).filter (fun i => decide (i < b)) = List.range' s (min n (b - s)) := by
  induction n with
  | zero => simp
  | succ n ih =>
    rw [range'_concat_one, List.filter_append, ih]
    by_cases h : s + n < b
    · have h1 : min n (b - s) = n := by omega
      have h2 : min (n + 1) (b - s) = n + 1 := by omega
      simp only [List.filter_cons, List.filter_nil, decide_eq_true_eq, if_pos h, h1, h2]
      rw [← range'_concat_one s n]
    · have h1 : min (n + 1) (b - s) = min n (b - s) := by omega
      simp [List.filter_cons, h, h1]

theorem markFlatsAux_length (cats : List Cat) (seq : List ℕ) (r : ℕ) :
    (markFlatsAux cats seq r).length = cats.length := by
  induction seq generalizing cats r with
  | nil => cases r <;> simp [markFlatsAux]
  | cons a rest ih =>
    cases r with
    | zero => simp [markFlatsAux]
    | succ r =>
      rw [markFlatsAux]
      split
      · exact ih ..
      · rw [ih]; exact List.length_set ..

theorem markFlatsAux_getElem? (cats : List Cat) (seq : List ℕ) (r : ℕ)
    (hnd : seq.Nodup) (hlow : ∀ j ∈ seq, cats[j]? = some Cat.lower) (i : ℕ) :
    (markFlatsAux cats seq r)[i]? =
      if i ∈ seq.take r then some Cat.flat else cats[i]? := by
  induction seq generalizing cats r with
  | nil => cases r <;> simp [markFlatsAux]
  | cons a rest ih =>
    cases r with
    | zero => simp [markFlatsAux]
    | succ r =>
      have ha : cats[a]? = some Cat.lower := hlow a (by simp)
      have haD : cats.getD a Cat.lower = Cat.lower := by
        rw [List.getD_eq_getElem?_getD, ha]; rfl
      have halen : a < cats.length := (List.getElem?_eq_some.mp ha).1
      rw [markFlatsAux, if_neg (not_ne_iff.mpr haD)]
      have hnd' : rest.Nodup := hnd.of_cons
      have hanotin : a ∉ rest := (List.nodup_cons.mp hnd).1
      have hlow' : ∀ j ∈ rest, (cats.set a Cat.flat)[j]? = some Cat.lower := by
        intro j hj
        have hja : a ≠ j := fun h => hanotin (h ▸ hj)
        rw [List.getElem?_set_ne hja]
        exact hlow j (.tail _ hj)
      rw [ih (cats.set a Cat.flat) r hnd' hlow']
      rw [List.take_succ_cons]
      by_cases hia : i = a
      · have hmem : i ∈ a :: rest.take r := by simp [hia]
        rw [if_pos hmem]
        by_cases hr : i ∈ rest.take r
        · rw [if_pos hr]
        · rw [if_neg hr, hia, List.getElem?_set_eq_of_lt _ halen]
      · have hmem : (i ∈ a :: rest.take r) ↔ (i ∈ rest.take r) := by simp [hia]
        by_cases hr : i ∈ rest.take r
        · rw [if_pos hr, if_pos (hmem.mpr hr)]
        · rw [if_neg hr, if_neg (fun h => hr (hmem.mp h)),
            List.getElem?_set_ne (fun h => hia h.symm)]

theorem foldl_set_self (cats : List Cat) (xs : List ℕ)
    (hlow : ∀ j ∈ xs, cats[j]? = some Cat.lower) :
    xs.foldl (fun c i => c.set i Cat.lower) cats = cats := by
  induction xs generalizing cats with
  | nil => rfl
  | cons a rest ih =>
    have ha : cats[a]? = some Cat.lower := hlow a (by simp)
    have hset : cats.set a Cat.lower = cats := by
      apply List.ext_getElem?
      intro i
      by_cases hia : a = i
      · subst hia
        rw [List.getElem?_set_eq_of_lt _ (List.getElem?_eq_some.mp ha).1, ha]
      · rw [List.getElem?_set_ne hia]
    rw [List.foldl_cons, hset]
    exact ih cats (fun j hj => hlow j (.tail _ hj))

theorem applyUpperLast_concat (cats : List Cat) (l : List ℕ) (j : ℕ) :
    applyUpperLast cats (l ++ [j]) =
      l.foldl (fun c i => c.set i Cat.lower) (cats.set j Cat.upper) := by
  unfold applyUpperLast
  rw [List.getLast?_concat, List.dropLast_concat]

theorem applyUpperHead_cons (cats : List Cat) (a : ℕ) (l : List ℕ) :
    applyUpperHead cats (a :: l) =
      l.foldl (fun c i => c.set i Cat.lower) (cats.set a Cat.upper) := rfl

/-- `applyUpperLast` on a run `range' k m` of indices that are all still `lower`:
the run's last index (the one closest to the centre on the left side) becomes
`upper`, everything else is untouched. -/
theorem applyUpperLast_range' (cats : List Cat) (k m : ℕ)
    (hlow : ∀ j ∈ List.range' k m, cats[j]? = some Cat.lower) :
    applyUpperLast cats (List.range' k m) =
      if m = 0 then cats else cats.set (k + m - 1) Cat.upper := by
  cases m with
  | zero => rfl
  | succ m =>
    rw [range'_concat_one, applyUpperLast_concat, if_neg (Nat.succ_ne_zero m)]
    have hkm : k + (m + 1) - 1 = k + m := by omega
    rw [hkm]
    apply foldl_set_self
    intro i hi
    have hilt : i < k + m := by
      have := (List.mem_range'_1.mp hi).2
      omega
    rw [List.getElem?_set_ne (by omega)]
    exact hlow i (by rw [range'_concat_one]; exact List.mem_append_left _ hi)

/-- `applyUpperHead` on a run `range' s m` of indices that are all still `lower`:
the run's first index (the one closest to the centre on the right side) becomes
`upper`, everything else is untouched. -/
theorem applyUpperHead_range' (cats : List Cat) (s m : ℕ)
    (hlow : ∀ j ∈ List.range' s m, cats[j]? = some Cat.lower) :
    applyUpperHead cats (List.range' s m) =
      if m = 0 then cats else cats.set s Cat.upper := by
  cases m with
  | zero => rfl
  | succ m =>
    rw [List.range'_succ, applyUpperHead_cons, if_neg (Nat.succ_ne_zero m)]
    apply foldl_set_self
    intro i hi
    have higt : s < i := by
      have := (List.mem_range'_1.mp hi).1
      omega
    rw [List.getElem?_set_ne (by omega)]
    exact hlow i (by rw [List.range'_succ]; exact List.mem_cons_of_mem _ hi)

theorem nodup_range'_one (s n : ℕ) : (List.range' s n).Nodup := by
  induction n generalizing s with
  | zero => simp
  | succ n ih =>
    rw [List.range'_succ]
    refine List.nodup_cons.mpr ⟨fun hmem => ?_, ih (s + 1)⟩
    have := (List.mem_range'_1.mp hmem).1
    omega

/-- Pointwise value of the two `mark_flats` passes when the side index lists
are the runs `[0, a)` and `[s, s+m)` and `cats1` is `lower` on both runs: the
left pass marks the first `min e a` indices, the right pass (walking the
reversed list) marks the last `min e m` indices of the right run. -/
theorem afterFlats_getElem? (cats1 : List Cat) (a s m e : ℕ) (has : a ≤ s)
    (hlow1 : ∀ j, j < a → cats1[j]? = some Cat.lower)
    (hlow2 : ∀ j, s ≤ j → j < s + m → cats1[j]? = some Cat.lower) (j : ℕ) :
    (afterFlats cats1 (List.range' 0 a) (List.range' s m) e)[j]? =
      if j < min e a then some Cat.flat
      else if s + m - min e m ≤ j ∧ j < s + m then some Cat.flat
      else cats1[j]? := by
  have hka : min e a ≤ a := min_le_right ..
  have hkm : min e m ≤ m := min_le_right ..
  have h2 : ∀ j, (markFlatsAux cats1 (List.range' 0 a) e)[j]? =
      if j < min e a then some Cat.flat else cats1[j]? := by
    intro j
    rw [markFlatsAux_getElem? _ _ _ (nodup_range'_one 0 a)
      (fun x hx => hlow1 x (by simpa using (List.mem_range'_1.mp hx).2)) j, take_range']
    exact if_congr (by rw [List.mem_range'_1]; omega) rfl rfl
  have hlow2' : ∀ x ∈ (List.range' s m).reverse,
      (markFlatsAux cats1 (List.range' 0 a) e)[x]? = some Cat.lower := by
    intro x hx
    have hx' := List.mem_range'_1.mp (List.mem_reverse.mp hx)
    rw [h2, if_neg (by omega)]
    exact hlow2 x hx'.1 (by omega)
  unfold afterFlats
  rw [markFlatsAux_getElem? _ _ _ ((List.nodup_reverse).mpr (nodup_range'_one s m))
      hlow2' j,
    if_congr (mem_take_reverse_range' s m e j) rfl rfl, h2]
  by_cases hja : j < min e a
  · rw [if_pos hja, if_pos hja, if_neg (by omega)]
  · rw [if_neg hja, if_neg hja]

/-- Pointwise effect of the `left_nonflat` block: if a `lower` slot remains on
the left run after flat marking (`min e a < a`), index `a-1` becomes `upper`;
everything else is unchanged. -/
theorem afterLeftUpper_getElem? (cats1 cats3 : List Cat) (a s m e : ℕ) (has : a ≤ s)
    (hlow1 : ∀ j, j < a → cats1[j]? = some Cat.lower)
    (h3 : ∀ j, cats3[j]? =
      if j < min e a then some Cat.flat
      else if s + m - min e m ≤ j ∧ j < s + m then some Cat.flat
      else cats1[j]?) (j : ℕ) :
    (afterLeftUpper cats3 (List.range' 0 a))[j]? =
      if j + 1 = a ∧ min e a < a then some Cat.upper else cats3[j]? := by
  have hka : min e a ≤ a := min_le_right ..
  have hkm : min e m ≤ m := min_le_right ..
  have hpred : ∀ x ∈ List.range' 0 a,
      (cats3.getD x Cat.lower == Cat.lower) = decide (min e a ≤ x) := by
    intro x hx
    have hx' : x < a := by simpa using (List.mem_range'_1.mp hx).2
    rw [List.getD_eq_getElem?_getD, h3]
    by_cases hxk : x < min e a
    · rw [if_pos hxk, decide_eq_false (by omega : ¬ min e a ≤ x)]
      rfl
    · rw [if_neg hxk, if_neg (by omega), hlow1 x hx',
        decide_eq_true (by omega : min e a ≤ x)]
      rfl
  unfold afterLeftUpper
  rw [List.filter_congr hpred, filter_ge_range', applyUpperLast_range']
  · by_cases hz : a - min e a = 0
    · rw [if_pos hz, if_neg (by omega)]
    · rw [if_neg hz, (by omega : min e a + (a - min e a) - 1 = a - 1)]
      by_cases hj : j + 1 = a
      · have hlen3 : a - 1 < cats3.length := by
          have h0 : cats3[a - 1]? = some Cat.lower := by
            rw [h3, if_neg (by omega), if_neg (by omega)]
            exact hlow1 _ (by omega)
          exact (List.getElem?_eq_some.mp h0).1
        rw [if_pos ⟨hj, by omega⟩, (by omega : j = a - 1),
          List.getElem?_set_eq_of_lt _ hlen3]
      · rw [if_neg (by omega), List.getElem?_set_ne (by omega)]
  · intro x hx
    have hx' := List.mem_range'_1.mp hx
    rw [h3, if_neg (by omega), if_neg (by omega)]
    exact hlow1 x (by omega)

/-- Pointwise effect of the `right_nonflat` block: if a `lower` slot remains on
the right run after flat marking (`min e m < m`), index `s` becomes `upper`;
everything else is unchanged. -/
theorem afterRightUpper_getElem? (cats1 cats3 cats4 : List Cat) (a s m e : ℕ)
    (has : a ≤ s)
    (hlow2 : ∀ j, s ≤ j → j < s + m → cats1[j]? = some Cat.lower)
    (h3 : ∀ j, cats3[j]? =
      if j < min e a then some Cat.flat
      else if s + m - min e m ≤ j ∧ j < s + m then some Cat.flat
      else cats1[j]?)
    (h4 : ∀ j, cats4[j]? =
      if j + 1 = a ∧ min e a < a then some Cat.upper else cats3[j]?) (j : ℕ) :
    (afterRightUpper cats4 (List.range' s m))[j]? =
      if j = s ∧ min e m < m then some Cat.upper else cats4[j]? := by
  have hka : min e a ≤ a := min_le_right ..
  have hkm : min e m ≤ m := min_le_right ..
  have h4r : ∀ x, s ≤ x → x < s + m → cats4[x]? =
      if s + m - min e m ≤ x then some Cat.flat else cats1[x]? := by
    intro x hx1 hx2
    rw [h4, if_neg (by omega), h3, if_neg (by omega)]
    by_cases hxf : s + m - min e m ≤ x ∧ x < s + m
    · rw [if_pos hxf, if_pos hxf.1]
    · rw [if_neg hxf, if_neg (by omega)]
  have hpred : ∀ x ∈ List.range' s m,
      (cats4.getD x Cat.lower == Cat.lower) = decide (x < s + m - min e m) := by
    intro x hx
    have hx' := List.mem_range'_1.mp hx
    rw [List.getD_eq_getElem?_getD, h4r x hx'.1 hx'.2]
    by_cases hxf : s + m - min e m ≤ x
    · rw [if_pos hxf, decide_eq_false (by omega : ¬ x < s + m - min e m)]
      rfl
    · rw [if_neg hxf, hlow2 x hx'.1 hx'.2,
        decide_eq_true (by omega : x < s + m - min e m)]
      rfl
  unfold afterRightUpper
  rw [List.filter_congr hpred, filter_lt_range',
    (by omega : min m (s + m - min e m - s) = m - min e m), applyUpperHead_range']
  · by_cases hz : m - min e m = 0
    · rw [if_pos hz, if_neg (by omega)]
    · rw [if_neg hz]
      by_cases hj : j = s
      · have hlen4 : s < cats4.length := by
          have h0 : cats4[s]? = some Cat.lower := by
            rw [h4r s le_rfl (by omega), if_neg (by omega)]
            exact hlow2 s le_rfl (by omega)
          exact (List.getElem?_eq_some.mp h0).1
        rw [hj, List.getElem?_set_eq_of_lt _ hlen4, if_pos ⟨rfl, by omega⟩]
      · rw [List.getElem?_set_ne (fun h => hj h.symm), if_neg (by omega)]
  · intro x hx
    have hx' := List.mem_range'_1.mp hx
    rw [h4r x hx'.1 (by omega), if_neg (by omega)]
    exact hlow2 x hx'.1 (by omega)

/-- Pointwise description of `assignFinish` when the two side index lists are
the runs `[0, a)` and `[s, s+m)` (with `a ≤ s`) and `cats1` is `lower` on both
runs.  The left run gets `min e a` flats at its low (outer) end and, if a
`lower` slot remains, an `upper` at index `a-1`; symmetrically the right run
gets `min e m` flats at its high (outer) end and an `upper` at index `s`.
Indices outside the two runs keep their `cats1` value. -/
theorem assignFinish_getElem? (cats1 : List Cat) (a s m e : ℕ) (has : a ≤ s)
    (hlow1 : ∀ j, j < a → cats1[j]? = some Cat.lower)
    (hlow2 : ∀ j, s ≤ j → j < s + m → cats1[j]? = some Cat.lower) (i : ℕ) :
    (assignFinish cats1 (List.range' 0 a) (List.range' s m) e)[i]? =
      if i < min e a then some Cat.flat
      else if i + 1 = a ∧ min e a < a then some Cat.upper
      else if i < a then some Cat.lower
      else if s + m - min e m ≤ i ∧ i < s + m then some Cat.flat
      else if i = s ∧ min e m < m then some Cat.upper
      else if s ≤ i ∧ i < s + m then some Cat.lower
      else cats1[i]? := by
  have hka : min e a ≤ a := min_le_right ..
  have hkm : min e m ≤ m := min_le_right ..
  have h3 := afterFlats_getElem? cats1 a s m e has hlow1 hlow2
  have h4 := afterLeftUpper_getElem? cats1
    (afterFlats cats1 (List.range' 0 a) (List.range' s m) e) a s m e has hlow1 h3
  have h5 := afterRightUpper_getElem? cats1
    (afterFlats cats1 (List.range' 0 a) (List.range' s m) e)
    (afterLeftUpper (afterFlats cats1 (List.range' 0 a) (List.range' s m) e)
      (List.range' 0 a)) a s m e has hlow2 h3 h4
  unfold assignFinish
  rw [h5 i]
  by_cases c5 : i = s ∧ min e m < m
  · rw [if_pos c5, if_neg (by omega), if_neg (by omega), if_neg (by omega),
      if_neg (by omega), if_pos c5]
  · rw [if_neg c5, h4 i, h3 i]
    by_cases c1 : i < min e a
    · rw [if_pos c1, if_neg (by omega), if_pos c1]
    · rw [if_neg c1, if_neg c1]
      by_cases c2 : i + 1 = a ∧ min e a < a
      · rw [if_pos c2, if_pos c2]
      · rw [if_neg c2, if_neg c2]
        by_cases c3 : i < a
        · rw [if_pos c3, if_neg (by omega), hlow1 i c3]
        · rw [if_neg c3]
          by_cases c4 : s + m - min e m ≤ i ∧ i < s + m
          · rw [if_pos c4, if_pos c4]
          · rw [if_neg c4, if_neg c4, if_neg (by omega)]
            by_cases c6 : s ≤ i ∧ i < s + m
            · rw [if_pos c6, hlow2 i c6.1 c6.2]
            · rw [if_neg c6]
set_option maxHeartbeats 1600000 in
/-- Master pointwise characterization: `assign_categories count e` agrees with
the closed form `catAt count e` at every index (and is `none` out of range). -/
theorem assign_categories_getElem? (count e i : ℕ) :
    (assign_categories count e)[i]? =
      if i < count then some (catAt count e i) else none := by
  by_cases h0 : count = 0
  · subst h0
    simp [assign_categories]
  rw [assign_categories, if_neg h0]
  by_cases hpar : count % 2 = 1
  · rw [if_pos hpar]
    have h1 : ((List.replicate count Cat.lower).set (count / 2) Cat.valley_flat)[i]? =
        if i = count / 2 then some Cat.valley_flat
        else if i < count then some Cat.lower else none := by
      by_cases hic : i = count / 2
      · rw [hic, List.getElem?_set_eq_of_lt _ (by rw [List.length_replicate]; omega),
          if_pos rfl]
      · rw [List.getElem?_set_ne (fun h => hic h.symm), List.getElem?_replicate,
          if_neg hic]
    simp only [rangeFromTo, Nat.sub_zero]
    rw [assignFinish_getElem? _ (count / 2) (count / 2 + 1) (count - (count / 2 + 1)) e
      (by omega)
      (by intro j hj
          rw [List.getElem?_set_ne (by omega), List.getElem?_replicate, if_pos (by omega)])
      (by intro j hj1 hj2
          rw [List.getElem?_set_ne (by omega), List.getElem?_replicate, if_pos (by omega)])
      i, h1]
    simp only [catAt]
    split_ifs <;> first | rfl | (exfalso; omega)
  · rw [if_neg hpar]
    have h1 : (((List.replicate count Cat.lower).set (count / 2 - 1)
        Cat.valley_upper).set (count / 2) Cat.valley_upper)[i]? =
        if i = count / 2 then some Cat.valley_upper
        else if i = count / 2 - 1 then some Cat.valley_upper
        else if i < count then some Cat.lower else none := by
      by_cases hic : i = count / 2
      · rw [hic, List.getElem?_set_eq_of_lt _
          (by rw [List.length_set, List.length_replicate]; omega), if_pos rfl]
      · rw [List.getElem?_set_ne (fun h => hic h.symm), if_neg hic]
        by_cases hic2 : i = count / 2 - 1
        · rw [hic2, List.getElem?_set_eq_of_lt _ (by rw [List.length_replicate]; omega),
            if_pos rfl]
        · rw [List.getElem?_set_ne (fun h => hic2 h.symm), List.getElem?_replicate,
            if_neg hic2]
    simp only [rangeFromTo, Nat.sub_zero]
    rw [assignFinish_getElem? _ (count / 2 - 1) (count / 2 + 1)
      (count - (count / 2 + 1)) e (by omega)
      (by intro j hj
          rw [List.getElem?_set_ne (by omega), List.getElem?_set_ne (by omega),
            List.getElem?_replicate, if_pos (by omega)])
      (by intro j hj1 hj2
          rw [List.getElem?_set_ne (by omega), List.getElem?_set_ne (by omega),
            List.getElem?_replicate, if_pos (by omega)])
      i, h1]
    simp only [catAt]
    split_ifs <;> first | rfl | (exfalso; omega)

theorem assign_categories_length (count e : ℕ) :
    (assign_categories count e).length = count := by
  have hnone : (assign_categories count e)[count]? = none := by
    rw [assign_categories_getElem?, if_neg (by omega)]
  have hle : (assign_categories count e).length ≤ count := by
    by_contra h
    push_neg at h
    rw [List.getElem?_eq_getElem h] at hnone
    exact Option.some_ne_none _ hnone
  rcases Nat.eq_zero_or_pos count with h0 | h0
  · omega
  · have hsome : (assign_categories count e)[count - 1]? =
        some (catAt count e (count - 1)) := by
      rw [assign_categories_getElem?, if_pos (by omega)]
    have := (List.getElem?_eq_some.mp hsome).1
    omega

theorem catAt_valley_flat_iff (N e i : ℕ) (hodd : N % 2 = 1) :
    (catAt N e i = Cat.valley_flat ↔ i = N / 2) ∧ catAt N e i ≠ Cat.valley_upper := by
  simp only [catAt]
  split_ifs <;> simp_all

theorem catAt_valley_upper_iff (N e i : ℕ) (heven : N % 2 = 0) :
    (catAt N e i = Cat.valley_upper ↔ (i = N / 2 - 1 ∨ i = N / 2)) ∧
    catAt N e i ≠ Cat.valley_flat := by
  simp only [catAt]
  split_ifs <;> simp_all

/-- The category assignment the C2 claim text describes: identical to
`assign_categories` except that each side's `mark_flats` walk starts at the
centre and moves toward the edge, i.e. the left side is walked reversed and the
right side is walked unreversed (the code does the opposite). -/
def assignFinishClaimC2 (cats1 : List Cat) (left_indices right_indices : List ℕ)
    (end_flat : ℕ) : List Cat :=
  afterRightUpper
    (afterLeftUpper
      (markFlatsAux (markFlatsAux cats1 left_indices.reverse end_flat)
        right_indices end_flat)
      left_indices)
    right_indices

/-- Modelled from the spec (claim C2 wording): "on each side of the row's
structural center, assign_categories marks up to end_flat Lower slots as Flat
by walking outward from the center toward the edge"; the rest (centre marks,
upper selection) matches the source. -/
def assign_categories_claimC2 (count : ℕ) (end_flat : ℕ) : List Cat :=
  if count = 0 then []
  else if count % 2 = 1 then
    let center := count / 2
    assignFinishClaimC2 ((List.replicate count Cat.lower).set center Cat.valley_flat)
      (rangeFromTo 0 center) (rangeFromTo (center + 1) count) end_flat
  else
    let center_left := count / 2 - 1
    let center_right := count / 2
    assignFinishClaimC2
      (((List.replicate count Cat.lower).set center_left Cat.valley_upper).set
        center_right Cat.valley_upper)
      (rangeFromTo 0 center_left) (rangeFromTo (center_right + 1) count) end_flat

/-- C1: for every count `N ≥ 0` and `end_flat ∈ {0,1,2}`,
`assign_categories N end_flat` returns a list of length exactly `N` whose
elements are drawn from the five categories; when `N` is odd the result
contains exactly one `valley_flat` (at index `N / 2`) and no `valley_upper`;
when `N` is even and `N ≥ 2` it contains exactly two `valley_upper` (at
indices `N/2 - 1` and `N/2`) and no `valley_flat`. -/
theorem claim_C1 (N end_flat : ℕ) (_he : end_flat ≤ 2) :
    (assign_categories N end_flat).length = N ∧
    (∀ c ∈ assign_categories N end_flat,
      c ∈ [Cat.lower, Cat.upper, Cat.flat, Cat.valley_flat, Cat.valley_upper]) ∧
    (N % 2 = 1 → ∀ i, i < N →
      ((assign_categories N end_flat)[i]? = some Cat.valley_flat ↔ i = N / 2) ∧
      (assign_categories N end_flat)[i]? ≠ some Cat.valley_upper) ∧
    (N % 2 = 0 → 2 ≤ N → ∀ i, i < N →
      ((assign_categories N end_flat)[i]? = some Cat.valley_upper ↔
        (i = N / 2 - 1 ∨ i = N / 2)) ∧
      (assign_categories N end_flat)[i]? ≠ some Cat.valley_flat) := by
  refine ⟨assign_categories_length N end_flat, ?_, ?_, ?_⟩
  · intro c _
    cases c <;> simp
  · intro hodd i hi
    have h := catAt_valley_flat_iff N end_flat i hodd
    rw [assign_categories_getElem?, if_pos hi]
    refine ⟨?_, fun hsome => h.2 (Option.some_inj.mp hsome)⟩
    rw [Option.some_inj]
    exact h.1
  · intro heven _ i hi
    have h := catAt_valley_upper_iff N end_flat i heven
    rw [assign_categories_getElem?, if_pos hi]
    refine ⟨?_, fun hsome => h.2 (Option.some_inj.mp hsome)⟩
    rw [Option.some_inj]
    exact h.1

theorem claim_C1_witness :
    (assign_categories 5 1).length = 5 ∧
    ((assign_categories 5 1)[2]? = some Cat.valley_flat ↔ 2 = 5 / 2) :=
  ⟨(claim_C1 5 1 (by norm_num)).1,
    ((claim_C1 5 1 (by norm_num)).2.2.1 (by norm_num) 2 (by norm_num)).1⟩

/-- C2 counterexample: the claim says each side's flat marking walks outward
from the centre toward the edge.  The code walks from the outer edge toward the
centre: at `(N, end_flat) = (5, 1)` the code produces `flat` at the outermost
indices 0 and 4 (`upper` at 1 and 3), while the claimed walk would produce
`flat` at the inner indices 1 and 3 (`upper` at 0 and 4). -/
theorem claim_C2_counterexample :
    assign_categories_claimC2 5 1 ≠ assign_categories 5 1 ∧
    assign_categories 5 1 =
      [Cat.flat, Cat.upper, Cat.valley_flat, Cat.upper, Cat.flat] ∧
    assign_categories_claimC2 5 1 =
      [Cat.upper, Cat.flat, Cat.valley_flat, Cat.flat, Cat.upper] := by
  refine ⟨by decide, by decide, by decide⟩

/-- C2 (amended): for every `N ≥ 2` and `end_flat ∈ {0,1,2}`, on each side of
the centre the code marks up to `end_flat` still-`lower` slots as `flat`
walking from the outer edge toward the centre, and afterwards the still-`lower`
slot closest to the centre on each side (if any) becomes `upper` while all
others on that side remain `lower` — i.e. the assignment equals the closed
form `catAt`. -/
theorem claim_C2_amended (N end_flat : ℕ) (_hN : 2 ≤ N) (_he : end_flat ≤ 2) :
    assign_categories N end_flat = (List.range N).map (catAt N end_flat) := by
  apply List.ext_getElem?
  intro i
  rw [assign_categories_getElem?, List.getElem?_map]
  by_cases hi : i < N
  · rw [if_pos hi, List.getElem?_range hi]
    rfl
  · rw [if_neg hi, List.getElem?_eq_none (by rw [List.length_range]; omega)]
    rfl

theorem claim_C2_amended_witness :
    assign_categories 5 1 = (List.range 5).map (catAt 5 1) :=
  claim_C2_amended 5 1 (by norm_num) (by norm_num)

/-- C5: the symmetric curve construction returns
`P1 = (P0.x + row_length/3, P0.y + beta)` and
`P2 = (P3.x - row_length/3, P3.y + beta)` with `beta = (4/3)·(-sag)`, and at
`P0=(0,0), P3=(100,0), sag=20` gives `P1.x = 100/3`, `P2.x = 200/3` and both
control-point Y values `(4/3)·(-20)`. -/
theorem claim_C5 (x0 y x3 sag lw rw : ℚ) :
    calculate_bezier_controls (x0, y) (x3, y) sag lw rw false =
      ((x0 + (x3 - x0) / 3, y + (4/3) * (-sag)),
       (x3 - (x3 - x0) / 3, y + (4/3) * (-sag))) ∧
    (calculate_bezier_controls (0, 0) (100, 0) 20 lw rw false).1.1 = 100 / 3 ∧
    (calculate_bezier_controls (0, 0) (100, 0) 20 lw rw false).2.1 = 200 / 3 ∧
    (calculate_bezier_controls (0, 0) (100, 0) 20 lw rw false).1.2 = (4/3) * (-20) ∧
    (calculate_bezier_controls (0, 0) (100, 0) 20 lw rw false).2.2 = (4/3) * (-20) := by
  refine ⟨rfl, ?_, ?_, ?_, ?_⟩ <;> norm_num [calculate_bezier_controls]

/-- C6 counterexample: with `leftW = 4e-7 > rightW = 2e-7` (both positive) the
guard `total_width > 1e-6` fails, so the asymmetry is zeroed and the control
points coincide with the symmetric ones instead of being strictly lower. -/
theorem claim_C6_counterexample :
    (0 : ℚ) < 2/10^7 ∧ (2 : ℚ)/10^7 < 4/10^7 ∧
    (calculate_asymmetric_bezier_controls (0, 0) (100, 0) 20 (4/10^7) (2/10^7)).1.1 =
      (calculate_bezier_controls (0, 0) (100, 0) 20 (4/10^7) (2/10^7) false).1.1 ∧
    (calculate_asymmetric_bezier_controls (0, 0) (100, 0) 20 (4/10^7) (2/10^7)).2.1 =
      (calculate_bezier_controls (0, 0) (100, 0) 20 (4/10^7) (2/10^7) false).2.1 := by
  refine ⟨by norm_num, by norm_num, ?_, ?_⟩ <;>
    norm_num [calculate_asymmetric_bezier_controls, calculate_bezier_controls]

/-- C6 (amended): the asymmetric construction computes
`asymmetry = (leftW-rightW)/(leftW+rightW)` (0 when the total is `≤ 1e-6`),
`shift = asymmetry · 0.15` with `|shift| ≤ 0.15` for nonnegative widths, and
`P1 = (P0.x + L·(1/3−shift), P0.y + beta)`,
`P2 = (P3.x − L·(1/3+shift), P3.y + beta)`; when `leftW > rightW`, **provided
additionally** `leftW + rightW > 1e-6` and the row length is positive, both
`P1.x` and `P2.x` are strictly lower than in the symmetric case; the Y value
`beta = (4/3)·(−sag)` is unaffected by asymmetry. -/
theorem claim_C6_amended (x0 y x3 sag lw rw : ℚ) :
    calculate_asymmetric_bezier_controls (x0, y) (x3, y) sag lw rw =
      ((x0 + (x3 - x0) *
          (1/3 - (if 1e-6 < lw + rw then (lw - rw) / (lw + rw) else 0) * 0.15),
        y + (4/3) * (-sag)),
       (x3 - (x3 - x0) *
          (1/3 + (if 1e-6 < lw + rw then (lw - rw) / (lw + rw) else 0) * 0.15),
        y + (4/3) * (-sag))) ∧
    (0 ≤ lw → 0 ≤ rw →
      |(if 1e-6 < lw + rw then (lw - rw) / (lw + rw) else 0) * 0.15| ≤ 0.15) ∧
    (rw < lw → 1e-6 < lw + rw → 0 < x3 - x0 →
      (calculate_asymmetric_bezier_controls (x0, y) (x3, y) sag lw rw).1.1 <
        (calculate_bezier_controls (x0, y) (x3, y) sag lw rw false).1.1 ∧
      (calculate_asymmetric_bezier_controls (x0, y) (x3, y) sag lw rw).2.1 <
        (calculate_bezier_controls (x0, y) (x3, y) sag lw rw false).2.1) := by
  have hEq : calculate_asymmetric_bezier_controls (x0, y) (x3, y) sag lw rw =
      ((x0 + (x3 - x0) *
          (1/3 - (if 1e-6 < lw + rw then (lw - rw) / (lw + rw) else 0) * 0.15),
        y + (4/3) * (-sag)),
       (x3 - (x3 - x0) *
          (1/3 + (if 1e-6 < lw + rw then (lw - rw) / (lw + rw) else 0) * 0.15),
        y + (4/3) * (-sag))) := rfl
  refine ⟨hEq, ?_, ?_⟩
  · intro hlw hrw
    split_ifs with h
    · have hpos : (0 : ℚ) < lw + rw := lt_trans (by norm_num) h
      have h1 : |lw - rw| ≤ lw + rw := by
        rw [abs_sub_le_iff]
        constructor <;> linarith
      have h2 : |(lw - rw) / (lw + rw)| ≤ 1 := by
        rw [abs_div, abs_of_pos hpos]
        exact div_le_one_of_le₀ h1 (le_of_lt hpos)
      calc |(lw - rw) / (lw + rw) * 0.15|
          = |(lw - rw) / (lw + rw)| * 0.15 := by
            rw [abs_mul, abs_of_nonneg (by norm_num : (0:ℚ) ≤ 0.15)]
        _ ≤ 1 * 0.15 := mul_le_mul_of_nonneg_right h2 (by norm_num)
        _ = 0.15 := by norm_num
    · norm_num
  · intro hlt htot hlen
    have hshift : 0 < (lw - rw) / (lw + rw) * 0.15 := by
      have hpos : (0 : ℚ) < lw + rw := lt_trans (by norm_num) htot
      have : (0 : ℚ) < lw - rw := by linarith
      positivity
    rw [hEq]
    have hSym : calculate_bezier_controls (x0, y) (x3, y) sag lw rw false =
        ((x0 + (x3 - x0) / 3, y + (4/3) * (-sag)),
         (x3 - (x3 - x0) / 3, y + (4/3) * (-sag))) := rfl
    rw [hSym, if_pos htot]
    constructor
    · show x0 + (x3 - x0) * (1/3 - (lw - rw) / (lw + rw) * 0.15) < x0 + (x3 - x0) / 3
      nlinarith [mul_pos hlen hshift]
    · show x3 - (x3 - x0) * (1/3 + (lw - rw) / (lw + rw) * 0.15) < x3 - (x3 - x0) / 3
      nlinarith [mul_pos hlen hshift]

theorem claim_C6_amended_witness :
    (calculate_asymmetric_bezier_controls (0, 0) (100, 0) 20 2 1).1.1 <
      (calculate_bezier_controls (0, 0) (100, 0) 20 2 1 false).1.1 ∧
    (calculate_asymmetric_bezier_controls (0, 0) (100, 0) 20 2 1).2.1 <
      (calculate_bezier_controls (0, 0) (100, 0) 20 2 1 false).2.1 :=
  (claim_C6_amended 0 0 100 20 2 1).2.2 (by norm_num) (by norm_num) (by norm_num)

/-- C9 counterexample: for an invalid dimension (`-10`, or `0`) the code does
not report any error — it substitutes the default `UNIT_MM` (19.05 mm), both in
`_quantize_dim_mm` and in the final clamp of `infer_key_dimensions`, exactly as
the repository's own tests assert. -/
theorem claim_C9_counterexample :
    _quantize_dim_mm (-10) 1 (1/4) = UNIT_MM ∧
    _quantize_dim_mm 0 1 (1/4) = UNIT_MM ∧
    infer_key_dimensions_clamp (-10) = UNIT_MM ∧
    infer_key_dimensions_clamp 0 = UNIT_MM := by
  refine ⟨?_, ?_, ?_, ?_⟩ <;>
    norm_num [_quantize_dim_mm, infer_key_dimensions_clamp]

/-- C9 (amended): for every inferred dimension `≤ 0` (or NaN) the engine
substitutes the default `UNIT_MM` (1u = 19.05 mm) and reports no error:
`_quantize_dim_mm` returns `min_units · UNIT_MM` and the final clamp of
`infer_key_dimensions` replaces the value with `UNIT_MM`. -/
theorem claim_C9_amended (w : ℚ) (hw : w ≤ 0) :
    _quantize_dim_mm w 1 (1/4) = UNIT_MM ∧
    infer_key_dimensions_clamp w = UNIT_MM := by
  constructor
  · unfold _quantize_dim_mm
    rw [if_pos hw, one_mul]
  · unfold infer_key_dimensions_clamp
    rw [if_pos hw]

theorem claim_C9_amended_witness :
    _quantize_dim_mm (-10) 1 (1/4) = UNIT_MM ∧
    infer_key_dimensions_clamp (-10) = UNIT_MM :=
  claim_C9_amended (-10) (by norm_num)

/-- C10: slot-0 anchoring.  When slot 0's displacement from its original anchor
exceeds `1e-9` in at least one coordinate, every center is translated by the
single vector `delta`, slot 0 lands exactly on the anchor and all pairwise
differences are preserved; otherwise the list is returned unchanged. -/
theorem claim_C10 (c0 : ℚ × ℚ) (rest orig : List (ℚ × ℚ)) (_ho : orig ≠ []) :
    ((1e-9 < |c0.1 - (orig.getD 0 (0, 0)).1| ∨ 1e-9 < |c0.2 - (orig.getD 0 (0, 0)).2|) →
      (apply_position_to_origin (c0 :: rest) orig).length = (c0 :: rest).length ∧
      (apply_position_to_origin (c0 :: rest) orig).getD 0 (0, 0) = orig.getD 0 (0, 0) ∧
      (∀ i, i < (c0 :: rest).length →
        (apply_position_to_origin (c0 :: rest) orig).getD i (0, 0) =
          (((c0 :: rest).getD i (0, 0)).1 - (c0.1 - (orig.getD 0 (0, 0)).1),
           ((c0 :: rest).getD i (0, 0)).2 - (c0.2 - (orig.getD 0 (0, 0)).2))) ∧
      (∀ i j, i < (c0 :: rest).length → j < (c0 :: rest).length →
        ((apply_position_to_origin (c0 :: rest) orig).getD i (0, 0)).1 -
            ((apply_position_to_origin (c0 :: rest) orig).getD j (0, 0)).1 =
          ((c0 :: rest).getD i (0, 0)).1 - ((c0 :: rest).getD j (0, 0)).1 ∧
        ((apply_position_to_origin (c0 :: rest) orig).getD i (0, 0)).2 -
            ((apply_position_to_origin (c0 :: rest) orig).getD j (0, 0)).2 =
          ((c0 :: rest).getD i (0, 0)).2 - ((c0 :: rest).getD j (0, 0)).2)) ∧
    (¬(1e-9 < |c0.1 - (orig.getD 0 (0, 0)).1| ∨ 1e-9 < |c0.2 - (orig.getD 0 (0, 0)).2|) →
      apply_position_to_origin (c0 :: rest) orig = c0 :: rest) := by
  have hmapD : ∀ (l : List (ℚ × ℚ)) (f : ℚ × ℚ → ℚ × ℚ) (i : ℕ), i < l.length →
      (l.map f).getD i (0, 0) = f (l.getD i (0, 0)) := by
    intro l f i hi
    rw [List.getD_eq_getElem?_getD, List.getElem?_map, List.getD_eq_getElem?_getD,
      List.getElem?_eq_getElem hi]
    rfl
  constructor
  · intro hcond
    have hres : apply_position_to_origin (c0 :: rest) orig =
        (c0 :: rest).map (fun c => (c.1 - (c0.1 - (orig.getD 0 (0, 0)).1),
          c.2 - (c0.2 - (orig.getD 0 (0, 0)).2))) := by
      simp only [apply_position_to_origin]
      rw [if_pos hcond]
    rw [hres]
    refine ⟨by rw [List.length_map], ?_, ?_, ?_⟩
    · rw [hmapD _ _ 0 (by simp)]
      show (c0.1 - (c0.1 - (orig.getD 0 (0, 0)).1), c0.2 - (c0.2 - (orig.getD 0 (0, 0)).2))
        = orig.getD 0 (0, 0)
      rw [show c0.1 - (c0.1 - (orig.getD 0 (0, 0)).1) = (orig.getD 0 (0, 0)).1 by ring,
        show c0.2 - (c0.2 - (orig.getD 0 (0, 0)).2) = (orig.getD 0 (0, 0)).2 by ring]
    · intro i hi
      rw [hmapD _ _ i hi]
    · intro i j hi hj
      rw [hmapD _ _ i hi, hmapD _ _ j hj]
      constructor <;> ring
  · intro hcond
    simp only [apply_position_to_origin]
    rw [if_neg hcond]

theorem claim_C10_witness :
    (apply_position_to_origin ((1, 0) :: [(2, 5)]) [((0 : ℚ), (0 : ℚ))]).getD 0 (0, 0) =
      ([((0 : ℚ), (0 : ℚ))]).getD 0 (0, 0) :=
  ((claim_C10 (1, 0) [(2, 5)] [(0, 0)] (by simp)).1 (Or.inl (by norm_num))).2.1

theorem foldl_condSetY_length (P : ℕ → Prop) [DecidablePred P] (base_y : ℚ)
    (seq : List ℕ) (centers : List (ℚ × ℚ)) :
    (seq.foldl (fun cs idx =>
      if P idx then cs.set idx ((cs.getD idx (0, 0)).1, base_y) else cs)
      centers).length = centers.length := by
  induction seq generalizing centers with
  | nil => rfl
  | cons a rest ih =>
    rw [List.foldl_cons, ih]
    split_ifs <;> simp

/-- Pointwise description of the flat-adjustment fold: an index that occurs in
`seq` and satisfies the guard gets its Y replaced by `base_y` (X kept),
everything else is untouched. -/
theorem foldl_condSetY_getElem? (P : ℕ → Prop) [DecidablePred P] (base_y : ℚ)
    (seq : List ℕ) (hnd : seq.Nodup) (centers : List (ℚ × ℚ)) (i : ℕ) :
    (seq.foldl (fun cs idx =>
      if P idx then cs.set idx ((cs.getD idx (0, 0)).1, base_y) else cs)
      centers)[i]? =
      if i ∈ seq ∧ P i then (centers[i]?).map (fun c => (c.1, base_y))
      else centers[i]? := by
  induction seq generalizing centers with
  | nil => simp
  | cons a rest ih =>
    rw [List.foldl_cons, ih hnd.of_cons]
    by_cases hia : i = a
    · subst hia
      have hnotin : i ∉ rest := (List.nodup_cons.mp hnd).1
      rw [if_neg (fun h => hnotin h.1)]
      by_cases hP : P i
      · rw [if_pos hP, if_pos ⟨by simp, hP⟩]
        rcases Nat.lt_or_ge i centers.length with hlen | hlen
        · rw [List.getElem?_set_eq_of_lt _ hlen, List.getElem?_eq_getElem hlen,
            List.getD_eq_getElem?_getD, List.getElem?_eq_getElem hlen]
          rfl
        · rw [List.set_eq_of_length_le (by omega), List.getElem?_eq_none (by omega)]
          rfl
      · rw [if_neg hP, if_neg (fun h => hP h.2)]
    · have hmem : (i ∈ a :: rest ∧ P i) ↔ (i ∈ rest ∧ P i) := by
        constructor
        · rintro ⟨hm, hp⟩
          rcases List.mem_cons.mp hm with h | h
          · exact absurd h hia
          · exact ⟨h, hp⟩
        · rintro ⟨hm, hp⟩
          exact ⟨List.mem_cons_of_mem _ hm, hp⟩
      have hset : ∀ (v : ℚ × ℚ), (centers.set a v)[i]? = centers[i]? :=
        fun v => List.getElem?_set_ne (fun h => hia h.symm)
      by_cases hc : i ∈ rest ∧ P i
      · rw [if_pos hc, if_pos (hmem.mpr hc)]
        split_ifs <;> first | rw [hset] | rfl
      · rw [if_neg hc, if_neg (fun h => hc (hmem.mp h))]
        split_ifs <;> first | rw [hset] | rfl

/-- C8: the flat-baseline pass on a solved list of length `N ≥ 2` forces the Y
of every `flat` slot except slot 0, and of the final slot unconditionally, to
slot 0's Y; X coordinates and all other slots are unchanged; length (hence
ordering) is preserved. -/
theorem claim_C8 (centers : List (ℚ × ℚ)) (categories : List Cat) (N : ℕ)
    (hlen : centers.length = N) (_hcat : categories.length = N) (hN : 2 ≤ N) :
    (apply_flat_key_adjustments centers categories N).length = N ∧
    (∀ i, i < N →
      ((apply_flat_key_adjustments centers categories N).getD i (0, 0)).1 =
        (centers.getD i (0, 0)).1 ∧
      ((apply_flat_key_adjustments centers categories N).getD i (0, 0)).2 =
        (if (categories.getD i Cat.lower = Cat.flat ∧ 0 < i) ∨ i = N - 1
          then (centers.getD 0 (0, 0)).2
          else (centers.getD i (0, 0)).2)) := by
  have hF := foldl_condSetY_getElem?
    (fun idx => categories.getD idx Cat.lower = Cat.flat ∧ 0 < idx)
    ((centers.getD 0 (0, 0)).2) (List.range N) (List.nodup_range N) centers
  have hFlen := foldl_condSetY_length
    (fun idx => categories.getD idx Cat.lower = Cat.flat ∧ 0 < idx)
    ((centers.getD 0 (0, 0)).2) (List.range N) centers
  unfold apply_flat_key_adjustments
  rw [if_pos (by omega : 0 < N), if_pos (by omega : 1 < N), hFlen, hlen]
  have hFD : ∀ i, i < N →
      (List.foldl (fun cs idx =>
        if categories.getD idx Cat.lower = Cat.flat ∧ 0 < idx then
          cs.set idx ((cs.getD idx (0, 0)).1, (centers.getD 0 (0, 0)).2)
        else cs) centers (List.range N)).getD i (0, 0) =
      (if categories.getD i Cat.lower = Cat.flat ∧ 0 < i then
        ((centers.getD i (0, 0)).1, (centers.getD 0 (0, 0)).2)
      else centers.getD i (0, 0)) := by
    intro i hi
    rw [List.getD_eq_getElem?_getD, hF i]
    have hone : centers[i]? = some (centers.getD i (0, 0)) := by
      rw [List.getD_eq_getElem?_getD,
        List.getElem?_eq_getElem (show i < centers.length by omega)]
      rfl
    by_cases hc : categories.getD i Cat.lower = Cat.flat ∧ 0 < i
    · rw [if_pos ⟨List.mem_range.mpr hi, hc⟩, if_pos hc, hone]
      rfl
    · rw [if_neg (fun h => hc h.2), if_neg hc, hone]
      rfl
  have hlast : N - 1 < (List.foldl (fun cs idx =>
      if categories.getD idx Cat.lower = Cat.flat ∧ 0 < idx then
        cs.set idx ((cs.getD idx (0, 0)).1, (centers.getD 0 (0, 0)).2)
      else cs) centers (List.range N)).length := by
    rw [hFlen]; omega
  refine ⟨by rw [List.length_set, hFlen, hlen], ?_⟩
  intro i hi
  by_cases hilast : i = N - 1
  · subst hilast
    rw [List.getD_eq_getElem?_getD, List.getElem?_set_eq_of_lt _ hlast]
    constructor
    · show ((List.foldl _ centers (List.range N)).getD (N - 1) (0, 0)).1 = _
      rw [hFD (N - 1) (by omega)]
      split_ifs <;> rfl
    · show (centers.getD 0 (0, 0)).2 = _
      rw [if_pos (Or.inr rfl)]
  · rw [List.getD_eq_getElem?_getD, List.getElem?_set_ne (fun h => hilast h.symm),
      ← List.getD_eq_getElem?_getD, hFD i hi]
    by_cases hc : categories.getD i Cat.lower = Cat.flat ∧ 0 < i
    · rw [if_pos hc, if_pos (Or.inl hc)]
      exact ⟨rfl, rfl⟩
    · rw [if_neg hc, if_neg (by rintro (h | h) <;> [exact hc h; exact hilast h])]
      exact ⟨rfl, rfl⟩

theorem claim_C8_witness :
    (apply_flat_key_adjustments [((0:ℚ), (5:ℚ)), (1, 7), (2, 9)]
        [Cat.flat, Cat.flat, Cat.lower] 3).length = 3 ∧
    ((apply_flat_key_adjustments [((0:ℚ), (5:ℚ)), (1, 7), (2, 9)]
        [Cat.flat, Cat.flat, Cat.lower] 3).getD 1 (0, 0)).2 =
      (([((0:ℚ), (5:ℚ)), (1, 7), (2, 9)]).getD 0 (0, 0)).2 := by
  have h := claim_C8 [((0:ℚ), (5:ℚ)), (1, 7), (2, 9)]
    [Cat.flat, Cat.flat, Cat.lower] 3 (by simp) (by simp) (by norm_num)
  refine ⟨h.1, ?_⟩
  rw [(h.2 1 (by norm_num)).2, if_pos (Or.inl (by constructor <;> simp))]

/-! ## Angle profile (`angle_profile_factor`) -/

/-- `angle_profile_factor` from `src/layout_calculator.py` (lines 34-50)
(duplicated in `src/keyboard_grinner.py` lines 370-376). -/
noncomputable def angle_profile_factor (profile_key : String) (norm_distance : ℝ) : ℝ :=
  let norm := max 0 (min 1 norm_distance)
  if profile_key = "cosine" then Real.cos ((Real.pi / 2) * norm)
  else if profile_key = "quadratic" then max 0 (1 - norm * norm)
  else 1

/-- C7: `angle_profile_factor` satisfies `("cosine", 0) = 1`,
`("cosine", 1) = 0`, `("cosine", 1.5) = 0` (clamped), `("quadratic", 0.5) =
0.75`, and every key other than `"cosine"`/`"quadratic"` (including
`"bezier"`) yields `1` for every distance, with no error. -/
theorem claim_C7 :
    angle_profile_factor "cosine" 0 = 1 ∧
    angle_profile_factor "cosine" 1 = 0 ∧
    angle_profile_factor "cosine" 1.5 = 0 ∧
    angle_profile_factor "quadratic" 0.5 = 0.75 ∧
    (∀ (key : String) (nd : ℝ), key ≠ "cosine" → key ≠ "quadratic" →
      angle_profile_factor key nd = 1) := by
  refine ⟨?_, ?_, ?_, ?_, ?_⟩
  · norm_num [angle_profile_factor]
  · norm_num [angle_profile_factor, Real.cos_pi_div_two]
  · have h : max 0 (min 1 (1.5 : ℝ)) = 1 := by norm_num
    simp only [angle_profile_factor, if_pos rfl, h, mul_one]
    exact Real.cos_pi_div_two
  · have h1 : ("quadratic" : String) ≠ "cosine" := by decide
    norm_num [angle_profile_factor, h1]
  · intro key nd h1 h2
    simp [angle_profile_factor, h1, h2]

theorem claim_C7_witness : angle_profile_factor "bezier" 0.3 = 1 :=
  claim_C7.2.2.2.2 "bezier" 0.3 (by decide) (by decide)

/-! ## Corner-contact solver (`get_lower_upper_labels`,
`place_with_corner_contact`) -/

/-- `rot2d` from `src/geometry.py` (lines 7-21). -/
noncomputable def rot2d (x y angle_rad : ℝ) : ℝ × ℝ :=
  let c := Real.cos angle_rad
  let s := Real.sin angle_rad
  (x * c - y * s, x * s + y * c)

/-- The four corner labels `"UL"`, `"UR"`, `"LL"`, `"LR"` used by
`corner_point_math` and `get_lower_upper_labels` (a closed set in the source). -/
inductive CornerLabel where
  | UL
  | UR
  | LL
  | LR
deriving DecidableEq, Repr

/-- `corner_point_math` from `src/geometry.py` (lines 247-271). -/
noncomputable def corner_point_math (center : ℝ × ℝ) (width height angle : ℝ)
    (label : CornerLabel) : ℝ × ℝ :=
  let hw := width / 2
  let hh := height / 2
  let o : ℝ × ℝ :=
    match label with
    | .UL => (-hw, hh)
    | .UR => (hw, hh)
    | .LL => (-hw, -hh)
    | .LR => (hw, -hh)
  let r := rot2d o.1 o.2 angle
  (center.1 + r.1, center.2 + r.2)

open Classical in
/-- `get_lower_upper_labels` from `src/geometry.py` (lines 274-294): sort the
four labels by the math-Y of the corresponding corner (Python's stable
`sorted`, modelled by `mergeSort`); the two smallest-Y labels are "lower", the
two largest are "upper". -/
noncomputable def get_lower_upper_labels (angle width height : ℝ) :
    List CornerLabel × List CornerLabel :=
  let labels : List CornerLabel := [.UL, .UR, .LL, .LR]
  let sorted_labels := labels.mergeSort (fun a b =>
    decide ((corner_point_math (0, 0) width height angle a).2 ≤
      (corner_point_math (0, 0) width height angle b).2))
  (sorted_labels.take 2, sorted_labels.drop 2)

open Classical in
/-- The candidate search of `place_with_corner_contact`
(`src/layout_calculator.py` lines 150-177): the `best` accumulator over all
`≤ 2×2` corner-label combinations.  `None` is the initial value; the final
value is `none` exactly when no candidate was scored. -/
noncomputable def place_best (prev_center : ℝ × ℝ)
    (prev_angle curr_angle prev_width curr_width : ℝ) (mode : String)
    (forward : ℝ × ℝ) : Option (ℝ × (ℝ × ℝ)) :=
  let height : ℝ := ((UNIT_MM : ℚ) : ℝ)
  let lu_prev := get_lower_upper_labels prev_angle prev_width height
  let lu_curr := get_lower_upper_labels curr_angle curr_width height
  let prev_labels := if mode = "lower" then lu_prev.1 else lu_prev.2
  let curr_labels := if mode = "lower" then lu_curr.1 else lu_curr.2
  let target := (prev_width + curr_width) / 2
  prev_labels.foldl (fun best lp =>
    let p_corner := corner_point_math prev_center prev_width height prev_angle lp
    curr_labels.foldl (fun best lc =>
      let rel_corner := corner_point_math (0, 0) curr_width height curr_angle lc
      let candidate := (p_corner.1 - rel_corner.1, p_corner.2 - rel_corner.2)
      let dx := candidate.1 - prev_center.1
      let dy := candidate.2 - prev_center.2
      let dist := Real.sqrt (dx ^ 2 + dy ^ 2)
      let forward_dist := dx * forward.1 + dy * forward.2
      let score0 := 1000 * forward_dist - |dist - target|
      let score1 := if forward_dist < 0 then score0 - 1e6 else score0
      let score := if dist < 0.6 * target then score1 - 1e5 else score1
      match best with
      | none => some (score, candidate)
      | some b => if b.1 < score then some (score, candidate) else some b) best) none

/-- `place_with_corner_contact` from `src/layout_calculator.py`
(lines 132-183): the best-scoring candidate, or the straight-line fallback when
no candidate was scored. -/
noncomputable def place_with_corner_contact (prev_center : ℝ × ℝ)
    (prev_angle curr_angle prev_width curr_width : ℝ) (mode : String)
    (forward : ℝ × ℝ) : ℝ × ℝ :=
  match place_best prev_center prev_angle curr_angle prev_width curr_width
      mode forward with
  | none =>
    (prev_center.1 + forward.1 * ((prev_width + curr_width) / 2),
     prev_center.2 + forward.2 * ((prev_width + curr_width) / 2))
  | some b => b.2

theorem foldl_isSome_of_step {α β : Type} (f : Option α → β → Option α)
    (hf : ∀ acc b, (f acc b).isSome = true) :
    ∀ (l : List β) (init : Option α), (l ≠ [] ∨ init.isSome = true) →
      (l.foldl f init).isSome = true := by
  intro l
  induction l with
  | nil =>
    intro init h
    rcases h with h | h
    · exact absurd rfl h
    · exact h
  | cons a rest ih =>
    intro init _
    rw [List.foldl_cons]
    exact ih (f init a) (Or.inr (hf init a))

/-- C3: `get_lower_upper_labels` always returns two lower and two upper labels,
so `place_with_corner_contact` always scores at least one candidate: the
best-candidate accumulator is `some` for every input (any angles, widths, mode
string and forward vector), the result is that candidate's center, and the
zero-candidate fallback — were it ever reached — is exactly
`prev_center + forward × (prev_width + curr_width)/2`. -/
theorem claim_C3 (pc : ℝ × ℝ) (pa ca pw cw : ℝ) (mode : String) (fwd : ℝ × ℝ) :
    (∀ angle width height : ℝ,
      (get_lower_upper_labels angle width height).1.length = 2 ∧
      (get_lower_upper_labels angle width height).2.length = 2) ∧
    (place_best pc pa ca pw cw mode fwd).isSome = true ∧
    (∀ b, place_best pc pa ca pw cw mode fwd = some b →
      place_with_corner_contact pc pa ca pw cw mode fwd = b.2) ∧
    (place_best pc pa ca pw cw mode fwd = none →
      place_with_corner_contact pc pa ca pw cw mode fwd =
        (pc.1 + fwd.1 * ((pw + cw) / 2), pc.2 + fwd.2 * ((pw + cw) / 2))) := by
  have hlen : ∀ angle width height : ℝ,
      (get_lower_upper_labels angle width height).1.length = 2 ∧
      (get_lower_upper_labels angle width height).2.length = 2 := by
    intro angle width height
    constructor
    · show (List.take 2 _).length = 2
      rw [List.length_take, (List.mergeSort_perm _ _).length_eq]
      rfl
    · show (List.drop 2 _).length = 2
      rw [List.length_drop, (List.mergeSort_perm _ _).length_eq]
      rfl
  have hne : ∀ (l : List CornerLabel), l.length = 2 → l ≠ [] := by
    intro l hl hnil
    rw [hnil] at hl
    simp at hl
  have hite : ∀ (c : Prop) (inst : Decidable c) (x y : ℝ × (ℝ × ℝ)),
      (if c then some x else some y).isSome = true := by
    intro c inst x y
    split <;> rfl
  refine ⟨hlen, ?_, ?_, ?_⟩
  · show (place_best pc pa ca pw cw mode fwd).isSome = true
    unfold place_best
    apply foldl_isSome_of_step
    · intro acc lp
      apply foldl_isSome_of_step
      · intro acc2 lc
        cases acc2 with
        | none => rfl
        | some b => exact hite _ _ _ _
      · left
        split_ifs with hmode
        · exact hne _ (hlen ca cw _).1
        · exact hne _ (hlen ca cw _).2
    · left
      split_ifs with hmode
      · exact hne _ (hlen pa pw _).1
      · exact hne _ (hlen pa pw _).2
  · intro b hb
    unfold place_with_corner_contact
    rw [hb]
  · intro hnone
    unfold place_with_corner_contact
    rw [hnone]

theorem claim_C3_witness :
    (place_best (0, 0) 0 0 1 1 "lower" (1, 0)).isSome = true :=
  (claim_C3 (0, 0) 0 0 1 1 "lower" (1, 0)).2.1

/-! ## Arc-length parameterizer (`bezier_divide_by_distances`) -/

/-- `bezier_cubic_point` from `src/geometry.py` (lines 52-73). -/
noncomputable def bezier_cubic_point (t : ℝ) (P0 P1 P2 P3 : ℝ × ℝ) : ℝ × ℝ :=
  let u := 1 - t
  (u * u * u * P0.1 + 3 * u * u * t * P1.1 + 3 * u * t * t * P2.1 + t * t * t * P3.1,
   u * u * u * P0.2 + 3 * u * u * t * P1.2 + 3 * u * t * t * P2.2 + t * t * t * P3.2)

/-- The fixed sample resolution of `bezier_divide_by_distances` (line 132). -/
def samples : ℕ := 800

/-- The sample points `pts` of `bezier_divide_by_distances` (lines 133-135). -/
noncomputable def curveSamples (P0 P1 P2 P3 : ℝ × ℝ) : List (ℝ × ℝ) :=
  (List.range samples).map
    (fun (i : ℕ) => bezier_cubic_point ((i : ℝ) / ((samples - 1 : ℕ) : ℝ)) P0 P1 P2 P3)

/-- The cumulative-length loop of `bezier_divide_by_distances` (lines 136-143):
state is the pair `(lengths, total)`, starting from `([0], 0)`; each step
appends `total + hypot(dx, dy)`. -/
noncomputable def lengthsState (P0 P1 P2 P3 : ℝ × ℝ) : List ℝ × ℝ :=
  let pts := curveSamples P0 P1 P2 P3
  (List.range' 1 (samples - 1)).foldl
    (fun st idx =>
      let dx := (pts.getD idx (0, 0)).1 - (pts.getD (idx - 1) (0, 0)).1
      let dy := (pts.getD idx (0, 0)).2 - (pts.getD (idx - 1) (0, 0)).2
      let seg := Real.sqrt (dx ^ 2 + dy ^ 2)
      (st.1 ++ [st.2 + seg], st.2 + seg))
    ([0], 0)

open Classical in
/-- The binary search of `bezier_divide_by_distances` (lines 155-161):
`while lo < hi: mid = (lo+hi)//2; if lengths[mid] < target: lo = mid+1 else
hi = mid`, returning `lo` (the Python `mid` local is inlined). -/
noncomputable def bsearch (lengths : List ℝ) (target : ℝ) : ℕ → ℕ → ℕ
  | lo, hi =>
    if _h : lo < hi then
      if lengths.getD ((lo + hi) / 2) 0 < target then
        bsearch lengths target ((lo + hi) / 2 + 1) hi
      else
        bsearch lengths target lo ((lo + hi) / 2)
    else lo
  termination_by lo hi => hi - lo
  decreasing_by all_goals omega

open Classical in
/-- `bezier_divide_by_distances` from `src/geometry.py` (lines 117-163).
The Python list read `cumulative_distances[-1]` is modelled by `getLastD 0`
(the source raises on an empty list; the claims supply non-empty lists). -/
noncomputable def bezier_divide_by_distances (P0 P1 P2 P3 : ℝ × ℝ) (count : ℕ)
    (cumulative_distances : Option (List ℝ)) : List ℝ :=
  if count ≤ 1 then [0]
  else
    let lengths := (lengthsState P0 P1 P2 P3).1
    let total := (lengthsState P0 P1 P2 P3).2
    let cds :=
      match cumulative_distances with
      | none =>
        (List.range count).map
          (fun (k : ℕ) => total * ((k : ℝ) / ((count - 1 : ℕ) : ℝ)))
      | some cds0 =>
        let max_dist := if 0 < cds0.getLastD 0 then cds0.getLastD 0 else 1
        cds0.map (fun d => d / max_dist * total)
    cds.map (fun target =>
      ((bsearch lengths target 0 (samples - 1) : ℕ) : ℝ) / ((samples - 1 : ℕ) : ℝ))

theorem bsearch_bounds (lengths : List ℝ) (target : ℝ) :
    ∀ (n lo hi : ℕ), hi - lo ≤ n → lo ≤ hi →
      lo ≤ bsearch lengths target lo hi ∧ bsearch lengths target lo hi ≤ hi := by
  intro n
  induction n with
  | zero =>
    intro lo hi h1 h2
    rw [bsearch, dif_neg (by omega : ¬ lo < hi)]
    omega
  | succ n ih =>
    intro lo hi h1 h2
    rw [bsearch]
    by_cases hlt : lo < hi
    · rw [dif_pos hlt]
      by_cases hb : lengths.getD ((lo + hi) / 2) 0 < target
      · rw [if_pos hb]
        have h := ih ((lo + hi) / 2 + 1) hi (by omega) (by omega)
        omega
      · rw [if_neg hb]
        have h := ih lo ((lo + hi) / 2) (by omega) (by omega)
        omega
    · rw [dif_neg hlt]
      omega

theorem bsearch_mono (lengths : List ℝ) (t1 t2 : ℝ) (ht : t1 ≤ t2) :
    ∀ (n lo hi : ℕ), hi - lo ≤ n → lo ≤ hi →
      bsearch lengths t1 lo hi ≤ bsearch lengths t2 lo hi := by
  intro n
  induction n with
  | zero =>
    intro lo hi h1 h2
    have hx : bsearch lengths t1 lo hi = lo := by
      rw [bsearch, dif_neg (by omega : ¬ lo < hi)]
    rw [hx]
    exact (bsearch_bounds lengths t2 0 lo hi (by omega) h2).1
  | succ n ih =>
    intro lo hi h1 h2
    by_cases hlt : lo < hi
    · conv_lhs => rw [bsearch]
      conv_rhs => rw [bsearch]
      rw [dif_pos hlt, dif_pos hlt]
      by_cases hb1 : lengths.getD ((lo + hi) / 2) 0 < t1
      · rw [if_pos hb1, if_pos (lt_of_lt_of_le hb1 ht)]
        exact ih ((lo + hi) / 2 + 1) hi (by omega) (by omega)
      · rw [if_neg hb1]
        by_cases hb2 : lengths.getD ((lo + hi) / 2) 0 < t2
        · rw [if_pos hb2]
          have hL := (bsearch_bounds lengths t1 (((lo + hi) / 2) - lo) lo ((lo + hi) / 2)
            (by omega) (by omega)).2
          have hR := (bsearch_bounds lengths t2 (hi - ((lo + hi) / 2 + 1))
            ((lo + hi) / 2 + 1) hi (by omega) (by omega)).1
          omega
        · rw [if_neg hb2]
          exact ih lo ((lo + hi) / 2) (by omega) (by omega)
    · have hx : bsearch lengths t1 lo hi = lo := by rw [bsearch, dif_neg hlt]
      have hy : bsearch lengths t2 lo hi = lo := by rw [bsearch, dif_neg hlt]
      rw [hx, hy]

theorem bsearch_eq_lo (lengths : List ℝ) (target : ℝ)
    (hnn : ∀ i, 0 ≤ lengths.getD i 0) (ht : target ≤ 0) :
    ∀ (n lo hi : ℕ), hi - lo ≤ n → bsearch lengths target lo hi = lo := by
  intro n
  induction n with
  | zero =>
    intro lo hi h1
    rw [bsearch]
    by_cases hlt : lo < hi
    · omega
    · rw [dif_neg hlt]
  | succ n ih =>
    intro lo hi h1
    rw [bsearch]
    by_cases hlt : lo < hi
    · rw [dif_pos hlt, if_neg (by have := hnn ((lo + hi) / 2); linarith)]
      exact ih lo ((lo + hi) / 2) (by omega)
    · rw [dif_neg hlt]

theorem bsearch_eq_hi (lengths : List ℝ) (target : ℝ) :
    ∀ (n lo hi : ℕ), hi - lo ≤ n → lo ≤ hi →
      (∀ i, lo ≤ i → i < hi → lengths.getD i 0 < target) →
      bsearch lengths target lo hi = hi := by
  intro n
  induction n with
  | zero =>
    intro lo hi h1 h2 _
    rw [bsearch]
    by_cases hlt : lo < hi
    · omega
    · rw [dif_neg hlt]
      omega
  | succ n ih =>
    intro lo hi h1 h2 hall
    rw [bsearch]
    by_cases hlt : lo < hi
    · rw [dif_pos hlt, if_pos (hall ((lo + hi) / 2) (by omega) (by omega))]
      exact ih ((lo + hi) / 2 + 1) hi (by omega) (by omega)
        (fun i hi1 hi2 => hall i (by omega) hi2)
    · rw [dif_neg hlt]
      omega

/-- The length of one sampled segment, `math.hypot(dx, dy)`. -/
noncomputable def segLen (p q : ℝ × ℝ) : ℝ :=
  Real.sqrt ((q.1 - p.1) ^ 2 + (q.2 - p.2) ^ 2)

/-- Partial sums of the sampled segment lengths: the value `lengths[k]`. -/
noncomputable def segSum (pts : List (ℝ × ℝ)) : ℕ → ℝ
  | 0 => 0
  | k + 1 => segSum pts k + segLen (pts.getD k (0, 0)) (pts.getD (k + 1) (0, 0))

theorem lengthsState_fold_spec (pts : List (ℝ × ℝ)) (n : ℕ) :
    (List.range' 1 n).foldl
      (fun st idx =>
        let dx := (pts.getD idx (0, 0)).1 - (pts.getD (idx - 1) (0, 0)).1
        let dy := (pts.getD idx (0, 0)).2 - (pts.getD (idx - 1) (0, 0)).2
        let seg := Real.sqrt (dx ^ 2 + dy ^ 2)
        (st.1 ++ [st.2 + seg], st.2 + seg))
      ([0], 0) =
    ((List.range (n + 1)).map (segSum pts), segSum pts n) := by
  induction n with
  | zero =>
    rfl
  | succ n ih =>
    rw [range'_concat_one, List.foldl_append, ih, List.foldl_cons, List.foldl_nil]
    have h1 : 1 + n - 1 = n := by omega
    have h2 : 1 + n = n + 1 := by omega
    rw [h1, h2]
    conv_rhs => rw [List.range_succ]
    rw [List.map_append]
    rfl

theorem lengthsState_eq (P0 P1 P2 P3 : ℝ × ℝ) :
    lengthsState P0 P1 P2 P3 =
      ((List.range samples).map (segSum (curveSamples P0 P1 P2 P3)),
        segSum (curveSamples P0 P1 P2 P3) (samples - 1)) := by
  unfold lengthsState
  rw [lengthsState_fold_spec (curveSamples P0 P1 P2 P3) (samples - 1)]
  norm_num [samples]

theorem segSum_nonneg (pts : List (ℝ × ℝ)) (k : ℕ) : 0 ≤ segSum pts k := by
  induction k with
  | zero => exact le_refl 0
  | succ k ih =>
    rw [segSum]
    have := Real.sqrt_nonneg
      (((pts.getD (k + 1) (0, 0)).1 - (pts.getD k (0, 0)).1) ^ 2 +
        ((pts.getD (k + 1) (0, 0)).2 - (pts.getD k (0, 0)).2) ^ 2)
    unfold segLen
    linarith

theorem segSum_mono (pts : List (ℝ × ℝ)) {j k : ℕ} (h : j ≤ k) :
    segSum pts j ≤ segSum pts k := by
  induction k with
  | zero =>
    have : j = 0 := by omega
    rw [this]
  | succ k ih =>
    by_cases hj : j = k + 1
    · rw [hj]
    · have hle := ih (by omega)
      rw [segSum]
      have := Real.sqrt_nonneg
        (((pts.getD (k + 1) (0, 0)).1 - (pts.getD k (0, 0)).1) ^ 2 +
          ((pts.getD (k + 1) (0, 0)).2 - (pts.getD k (0, 0)).2) ^ 2)
      unfold segLen
      linarith

theorem getD_map_range (f : ℕ → ℝ) (n i : ℕ) (hi : i < n) :
    ((List.range n).map f).getD i 0 = f i := by
  rw [List.getD_eq_getElem?_getD, List.getElem?_map, List.getElem?_range hi]
  rfl

theorem getD_map_of_lt {α β : Type} (l : List α) (f : α → β) (i : ℕ)
    (hi : i < l.length) (d : β) (d' : α) :
    (l.map f).getD i d = f (l.getD i d') := by
  rw [List.getD_eq_getElem?_getD, List.getElem?_map, List.getD_eq_getElem?_getD,
    List.getElem?_eq_getElem hi]
  rfl

set_option maxRecDepth 4000 in
theorem lengths_getD (P0 P1 P2 P3 : ℝ × ℝ) (i : ℕ) (hi : i < samples) :
    (lengthsState P0 P1 P2 P3).1.getD i 0 =
      segSum (curveSamples P0 P1 P2 P3) i := by
  rw [lengthsState_eq]
  exact getD_map_range _ _ _ hi

theorem lengths_getD_nonneg (P0 P1 P2 P3 : ℝ × ℝ) (i : ℕ) :
    0 ≤ (lengthsState P0 P1 P2 P3).1.getD i 0 := by
  by_cases hi : i < samples
  · rw [lengths_getD _ _ _ _ _ hi]
    exact segSum_nonneg _ _
  · rw [lengthsState_eq, List.getD_eq_getElem?_getD,
      List.getElem?_eq_none (by rw [List.length_map, List.length_range]; omega)]
    exact le_refl 0

theorem samples_pos_cast : (0 : ℝ) < ((samples - 1 : ℕ) : ℝ) := by
  norm_num [samples]

theorem bsearch_div_bounds (lengths : List ℝ) (t : ℝ) :
    0 ≤ ((bsearch lengths t 0 (samples - 1) : ℕ) : ℝ) / ((samples - 1 : ℕ) : ℝ) ∧
    ((bsearch lengths t 0 (samples - 1) : ℕ) : ℝ) / ((samples - 1 : ℕ) : ℝ) ≤ 1 := by
  have hb := bsearch_bounds lengths t (samples - 1) 0 (samples - 1) (by omega) (by omega)
  constructor
  · exact div_nonneg (Nat.cast_nonneg _) (le_of_lt samples_pos_cast)
  · rw [div_le_one samples_pos_cast]
    exact_mod_cast hb.2

theorem bsearch_div_mono (lengths : List ℝ) {t1 t2 : ℝ} (h : t1 ≤ t2) :
    ((bsearch lengths t1 0 (samples - 1) : ℕ) : ℝ) / ((samples - 1 : ℕ) : ℝ) ≤
    ((bsearch lengths t2 0 (samples - 1) : ℕ) : ℝ) / ((samples - 1 : ℕ) : ℝ) := by
  refine (div_le_div_iff_of_pos_right samples_pos_cast).mpr ?_
  exact_mod_cast bsearch_mono lengths t1 t2 h (samples - 1) 0 (samples - 1)
    (by omega) (by omega)

theorem bsearch_div_zero (lengths : List ℝ) (t : ℝ)
    (hnn : ∀ i, 0 ≤ lengths.getD i 0) (ht : t ≤ 0) :
    ((bsearch lengths t 0 (samples - 1) : ℕ) : ℝ) / ((samples - 1 : ℕ) : ℝ) = 0 := by
  rw [bsearch_eq_lo lengths t hnn ht (samples - 1) 0 (samples - 1) (by omega)]
  simp

theorem bsearch_div_one (lengths : List ℝ) (t : ℝ)
    (hall : ∀ i, i < samples - 1 → lengths.getD i 0 < t) :
    ((bsearch lengths t 0 (samples - 1) : ℕ) : ℝ) / ((samples - 1 : ℕ) : ℝ) = 1 := by
  rw [bsearch_eq_hi lengths t (samples - 1) 0 (samples - 1) (by omega) (by omega)
    (fun i _ h2 => hall i h2)]
  exact div_self (ne_of_gt samples_pos_cast)

theorem getLastD_eq_getD_last (l : List ℝ) (d : ℝ) :
    l.getLastD d = l.getD (l.length - 1) d := by
  rw [List.getLastD_eq_getLast?, List.getLast?_eq_getElem?, List.getD_eq_getElem?_getD]

/-- C4 (amended): `bezier_divide_by_distances` returns `[0]` whenever
`count ≤ 1`; for `count > 1`, with a supplied non-decreasing cumulative list of
length `count` starting at 0 (or `None`), the result has length `count`, all
parameters lie in `[0,1]`, the list is non-decreasing and starts at `0`; and
its last element equals `1` **provided** the penultimate sampled cumulative
length is strictly below the sampled total (in particular the curve is not
degenerate) and, for a supplied list, its final entry is positive.  (On a
degenerate zero-length sampling, or an all-zero supplied list, every returned
parameter is `0` instead.) -/
theorem claim_C4_amended (P0 P1 P2 P3 : ℝ × ℝ) (count : ℕ) (cdo : Option (List ℝ))
    (hcd : ∀ l, cdo = some l →
      l.length = count ∧ l.Pairwise (· ≤ ·) ∧ l.getD 0 0 = 0) :
    (count ≤ 1 → bezier_divide_by_distances P0 P1 P2 P3 count cdo = [0]) ∧
    (1 < count →
      (bezier_divide_by_distances P0 P1 P2 P3 count cdo).length = count ∧
      (∀ x ∈ bezier_divide_by_distances P0 P1 P2 P3 count cdo, 0 ≤ x ∧ x ≤ 1) ∧
      (bezier_divide_by_distances P0 P1 P2 P3 count cdo).Pairwise (· ≤ ·) ∧
      (bezier_divide_by_distances P0 P1 P2 P3 count cdo).getD 0 0 = 0 ∧
      ((lengthsState P0 P1 P2 P3).1.getD (samples - 2) 0 < (lengthsState P0 P1 P2 P3).2 →
        (∀ l, cdo = some l → 0 < l.getD (l.length - 1) 0) →
        (bezier_divide_by_distances P0 P1 P2 P3 count cdo).getD (count - 1) 0 = 1)) := by
  constructor
  · intro h
    unfold bezier_divide_by_distances
    rw [if_pos h]
  intro hcount
  have htotnn : 0 ≤ (lengthsState P0 P1 P2 P3).2 := by
    rw [lengthsState_eq]
    exact segSum_nonneg _ _
  have hnn := lengths_getD_nonneg P0 P1 P2 P3
  have hlast1 : (lengthsState P0 P1 P2 P3).1.getD (samples - 2) 0 <
      (lengthsState P0 P1 P2 P3).2 →
      ∀ i, i < samples - 1 → (lengthsState P0 P1 P2 P3).1.getD i 0 <
        (lengthsState P0 P1 P2 P3).2 := by
    intro hl i hi
    have h1 : (lengthsState P0 P1 P2 P3).1.getD i 0 ≤
        (lengthsState P0 P1 P2 P3).1.getD (samples - 2) 0 := by
      rw [lengths_getD _ _ _ _ _ (by omega), lengths_getD _ _ _ _ _ (by omega)]
      exact segSum_mono _ (by omega)
    linarith
  rcases cdo with _ | cds
  · have hEq : bezier_divide_by_distances P0 P1 P2 P3 count none =
        ((List.range count).map
          (fun (k : ℕ) =>
            (lengthsState P0 P1 P2 P3).2 * ((k : ℝ) / ((count - 1 : ℕ) : ℝ)))).map
          (fun target =>
            ((bsearch (lengthsState P0 P1 P2 P3).1 target 0 (samples - 1) : ℕ) : ℝ) /
              ((samples - 1 : ℕ) : ℝ)) := by
      unfold bezier_divide_by_distances
      rw [if_neg (by omega)]
    have hcm1 : (0 : ℝ) < ((count - 1 : ℕ) : ℝ) := by
      exact_mod_cast (by omega : 0 < count - 1)
    have hfmono : ∀ {a b : ℕ}, a ≤ b →
        (lengthsState P0 P1 P2 P3).2 * ((a : ℝ) / ((count - 1 : ℕ) : ℝ)) ≤
        (lengthsState P0 P1 P2 P3).2 * ((b : ℝ) / ((count - 1 : ℕ) : ℝ)) := by
      intro a b hab
      refine mul_le_mul_of_nonneg_left ?_ htotnn
      exact (div_le_div_iff_of_pos_right hcm1).mpr (by exact_mod_cast hab)
    rw [hEq]
    refine ⟨?_, ?_, ?_, ?_, ?_⟩
    · rw [List.length_map, List.length_map, List.length_range]
    · intro x hx
      rw [List.mem_map] at hx
      obtain ⟨t, _, rfl⟩ := hx
      exact bsearch_div_bounds _ t
    · refine List.pairwise_map.mpr (List.pairwise_map.mpr ?_)
      exact (List.pairwise_lt_range count).imp
        (fun hab => bsearch_div_mono _ (hfmono (le_of_lt hab)))
    · rw [getD_map_of_lt _ _ 0 (by rw [List.length_map, List.length_range]; omega) _ 0,
        getD_map_range _ _ _ (by omega)]
      have hf0 : (lengthsState P0 P1 P2 P3).2 * (((0 : ℕ) : ℝ) / ((count - 1 : ℕ) : ℝ)) = 0 := by
        norm_num
      rw [hf0]
      exact bsearch_div_zero _ _ hnn le_rfl
    · intro hl _
      rw [getD_map_of_lt _ _ (count - 1)
        (by rw [List.length_map, List.length_range]; omega) _ 0,
        getD_map_range _ _ _ (by omega)]
      have hflast : (lengthsState P0 P1 P2 P3).2 *
          (((count - 1 : ℕ) : ℝ) / ((count - 1 : ℕ) : ℝ)) =
          (lengthsState P0 P1 P2 P3).2 := by
        rw [div_self (ne_of_gt hcm1), mul_one]
      rw [hflast]
      exact bsearch_div_one _ _ (hlast1 hl)
  · obtain ⟨hlen, hpw, hhead⟩ := hcd cds rfl
    have hEq : bezier_divide_by_distances P0 P1 P2 P3 count (some cds) =
        (cds.map (fun d => d / (if 0 < cds.getLastD 0 then cds.getLastD 0 else 1) *
          (lengthsState P0 P1 P2 P3).2)).map
          (fun target =>
            ((bsearch (lengthsState P0 P1 P2 P3).1 target 0 (samples - 1) : ℕ) : ℝ) /
              ((samples - 1 : ℕ) : ℝ)) := by
      unfold bezier_divide_by_distances
      rw [if_neg (by omega)]
    have hmd : (0 : ℝ) < (if 0 < cds.getLastD 0 then cds.getLastD 0 else 1) := by
      split_ifs with h
      · exact h
      · norm_num
    have hfmono : ∀ {a b : ℝ}, a ≤ b →
        a / (if 0 < cds.getLastD 0 then cds.getLastD 0 else 1) *
          (lengthsState P0 P1 P2 P3).2 ≤
        b / (if 0 < cds.getLastD 0 then cds.getLastD 0 else 1) *
          (lengthsState P0 P1 P2 P3).2 := by
      intro a b hab
      refine mul_le_mul_of_nonneg_right ?_ htotnn
      exact (div_le_div_iff_of_pos_right hmd).mpr hab
    rw [hEq]
    refine ⟨?_, ?_, ?_, ?_, ?_⟩
    · rw [List.length_map, List.length_map, hlen]
    · intro x hx
      rw [List.mem_map] at hx
      obtain ⟨t, _, rfl⟩ := hx
      exact bsearch_div_bounds _ t
    · refine List.pairwise_map.mpr (List.pairwise_map.mpr ?_)
      exact hpw.imp (fun hab => bsearch_div_mono _ (hfmono hab))
    · rw [getD_map_of_lt _ _ 0 (by rw [List.length_map, hlen]; omega) _ 0,
        getD_map_of_lt _ _ 0 (by rw [hlen]; omega) _ 0, hhead]
      rw [show (0 : ℝ) / (if 0 < cds.getLastD 0 then cds.getLastD 0 else 1) *
        (lengthsState P0 P1 P2 P3).2 = 0 from by rw [zero_div, zero_mul]]
      exact bsearch_div_zero _ _ hnn le_rfl
    · intro hl hsome
      have hpos := hsome cds rfl
      have hmd_eq : (if 0 < cds.getLastD 0 then cds.getLastD 0 else 1) =
          cds.getD (cds.length - 1) 0 := by
        rw [getLastD_eq_getD_last]
        exact if_pos hpos
      rw [getD_map_of_lt _ _ (count - 1) (by rw [List.length_map, hlen]; omega) _ 0,
        getD_map_of_lt _ _ (count - 1) (by rw [hlen]; omega) _ 0, hmd_eq]
      have hsame : cds.getD (count - 1) 0 = cds.getD (cds.length - 1) 0 := by
        rw [hlen]
      rw [hsame, div_self (ne_of_gt hpos), one_mul]
      exact bsearch_div_one _ _ (hlast1 hl)

theorem claim_C4_amended_witness :
    (bezier_divide_by_distances ((0 : ℝ), (0 : ℝ)) (0, 0) (0, 0) (0, 0) 2
      (some [0, 1])).length = 2 :=
  ((claim_C4_amended (0, 0) (0, 0) (0, 0) (0, 0) 2 (some [0, 1])
    (by
      intro l hl
      injection hl with h
      subst h
      refine ⟨rfl, ?_, rfl⟩
      simp)).2 (by norm_num)).1

theorem curveSamples_degenerate (i : ℕ) :
    (curveSamples ((0 : ℝ), (0 : ℝ)) (0, 0) (0, 0) (0, 0)).getD i (0, 0) = (0, 0) := by
  by_cases hi : i < samples
  · rw [List.getD_eq_getElem?_getD]
    unfold curveSamples
    rw [List.getElem?_map, List.getElem?_range hi]
    show bezier_cubic_point _ _ _ _ _ = (0, 0)
    unfold bezier_cubic_point
    norm_num
  · rw [List.getD_eq_getElem?_getD]
    unfold curveSamples
    rw [List.getElem?_eq_none (by rw [List.length_map, List.length_range]; omega)]
    rfl

theorem segSum_degenerate (k : ℕ) :
    segSum (curveSamples ((0 : ℝ), (0 : ℝ)) (0, 0) (0, 0) (0, 0)) k = 0 := by
  induction k with
  | zero => rfl
  | succ k ih =>
    rw [segSum, ih, curveSamples_degenerate, curveSamples_degenerate]
    unfold segLen
    norm_num

/-- C4 counterexample: on the degenerate curve with all four control points at
the origin, the sampled arc length is zero and every returned parameter is `0`;
in particular with `count = 2` and implied equal spacing the result is `[0, 0]`
whose last element is `0`, farther than one sample step (`1/799`) from the
claimed value `1`. -/
theorem claim_C4_counterexample :
    bezier_divide_by_distances ((0 : ℝ), (0 : ℝ)) (0, 0) (0, 0) (0, 0) 2 none = [0, 0] ∧
    ¬ ((1 : ℝ) - 1 / 799 ≤ ([(0 : ℝ), 0]).getD 1 0) := by
  constructor
  · have hEq : bezier_divide_by_distances ((0 : ℝ), (0 : ℝ)) (0, 0) (0, 0) (0, 0) 2 none =
        ((List.range 2).map
          (fun (k : ℕ) =>
            (lengthsState (0, 0) (0, 0) (0, 0) (0, 0)).2 * ((k : ℝ) / ((2 - 1 : ℕ) : ℝ)))).map
          (fun target =>
            ((bsearch (lengthsState ((0 : ℝ), (0 : ℝ)) (0, 0) (0, 0) (0, 0)).1 target 0
              (samples - 1) : ℕ) : ℝ) / ((samples - 1 : ℕ) : ℝ)) := by
      unfold bezier_divide_by_distances
      rw [if_neg (by omega)]
    rw [hEq]
    have htot : (lengthsState ((0 : ℝ), (0 : ℝ)) (0, 0) (0, 0) (0, 0)).2 = 0 := by
      rw [lengthsState_eq]
      exact segSum_degenerate _
    have hrange : List.range 2 = [0, 1] := rfl
    rw [hrange]
    simp only [List.map_cons, List.map_nil]
    have hz : ∀ k : ℕ,
        (lengthsState ((0 : ℝ), (0 : ℝ)) (0, 0) (0, 0) (0, 0)).2 *
          ((k : ℝ) / ((2 - 1 : ℕ) : ℝ)) = 0 := by
      intro k
      rw [htot, zero_mul]
    rw [hz 0, hz 1]
    have hb : ((bsearch (lengthsState ((0 : ℝ), (0 : ℝ)) (0, 0) (0, 0) (0, 0)).1 0 0
        (samples - 1) : ℕ) : ℝ) / ((samples - 1 : ℕ) : ℝ) = 0 :=
      bsearch_div_zero _ 0 (lengths_getD_nonneg _ _ _ _) le_rfl
    rw [hb]
  · norm_num

end KeyboardGrinner
